import Mathlib

/-!
# Verification of the home-bot vault indexing and query scripts

Shallow embedding of `src/scripts/vault/index_vault.py` and
`src/scripts/vault/query_vault.py`.  Text is modelled as `List Char`;
the environment/ChromaDB boundary is modelled explicitly (documents are
given as an ordered list of (relative path, optional text) pairs, the
vector store as an association list keyed by id, store responses as
`Except`).
-/

set_option maxRecDepth 8000

namespace HomeBot

/-- ASCII whitespace as matched by Python's `str.strip` / regex `\s`
(space, tab, newline, carriage return, vertical tab, form feed). -/
def isSpace (c : Char) : Bool :=
  c = ' ' || c = '\t' || c = '\n' || c = '\r' || c = Char.ofNat 11 || c = Char.ofNat 12

/-- One pass of `re.sub(r"\s+", " ", ·)`: the flag records whether the
previous input character was whitespace, so that a maximal whitespace run
is replaced by a single space. -/
def collapseAux : Bool → List Char → List Char
  | _, [] => []
  | prev, c :: cs =>
    if isSpace c then
      if prev then collapseAux true cs else ' ' :: collapseAux true cs
    else c :: collapseAux false cs

/-- Python `re.sub(r"\s+", " ", s)`. -/
def collapse (s : List Char) : List Char := collapseAux false s

/-- Python `str.strip()`: drop leading and trailing whitespace. -/
def trim (s : List Char) : List Char :=
  ((s.dropWhile isSpace).reverse.dropWhile isSpace).reverse

/-- Line 53 of `index_vault.py`: `content = re.sub(r"\s+", " ", content.strip())`. -/
def normalize (s : List Char) : List Char := collapse (trim s)

/-- The `while start < len(content)` loop of `chunk_md` (lines 55-61),
instrumented to record each chunk's start offset.  Each iteration takes
the window `content[start:start+size]`, keeps it when it contains a
non-whitespace character (`if chunk.strip():`), and sets
`start = (start + size) - overlap`.  The loop itself has no termination
guard, so it is modelled step-indexed: `none` means the given number of
iterations was not enough to reach `start ≥ len(content)` (for
`overlap ≥ size` this holds for every bound: the source loop diverges). -/
def chunkSteps (content : List Char) (size overlap : Nat) : Nat → Nat → Option (List (Nat × List Char))
  | fuel, start =>
    if start < content.length then
      match fuel with
      | 0 => none
      | fuel' + 1 =>
        let chunk := (content.drop start).take size
        match chunkSteps content size overlap fuel' (start + size - overlap) with
        | none => none
        | some rest =>
          some (if chunk.any (fun c => !(isSpace c)) then (start, chunk) :: rest else rest)
    else some []

/-- The chunks of `chunk_md content _` with their start offsets.  A fuel of
`(normalize content).length` iterations always suffices when
`overlap < size` (proved below in `chunkSteps_some`). -/
def chunk_starts (content : List Char) (size overlap : Nat) : List (Nat × List Char) :=
  ((chunkSteps (normalize content) size overlap (normalize content).length 0).getD [])

/-- Function `chunk_md(content, path, chunk_size, overlap)` (lines 51-62): normalize,
then window; every kept chunk is paired with `path`.  The Python defaults
are `chunk_size=1000, overlap=200`; call sites in this file pass them
explicitly. -/
def chunk_md (content : List Char) (path : String) (size overlap : Nat) : List (List Char × String) :=
  (chunk_starts content size overlap).map (fun p => (p.2, path))

/-- One row of the three parallel lists `docs`, `metas`, `ids` built by
`index_vault` (lines 75-81). -/
structure VEntry where
  text : List Char
  path : String
  id : String
deriving DecidableEq, Repr

/-- The inner `for chunk, _ in chunk_md(text, rel):` loop (lines 77-81):
each chunk is appended with metadata `{"path": rel}` and id
`f"{rel}:{idx}"`, and the running counter `idx` is incremented. -/
def entriesFrom (rel : String) : List (List Char × String) → Nat → List VEntry
  | [], _ => []
  | (c, _) :: cs, i =>
    { text := c, path := rel, id := rel ++ ":" ++ toString i } :: entriesFrom rel cs (i + 1)

/-- The outer `for md in vault.rglob("*.md"):` loop (lines 72-84) over the
enumerated files, in order.  A file is `(rel, some text)` when
`read_text` succeeds and `(rel, none)` when it raises (the `except`
branch skips it).  `idx` is a single counter threaded across all files,
exactly as in the source (it is initialised once, line 71, and never
reset per document). -/
def collectEntries : List (String × Option (List Char)) → Nat → List VEntry
  | [], _ => []
  | (_, none) :: rest, i => collectEntries rest i
  | (rel, some text) :: rest, i =>
    entriesFrom rel (chunk_md text rel 1000 200) i ++
      collectEntries rest (i + (chunk_md text rel 1000 200).length)

/-- The full ordered (text, path-metadata, id) sequence produced by one
indexing run over the given enumerated files. -/
def indexEntries (files : List (String × Option (List Char))) : List VEntry :=
  collectEntries files 0

/-- Function `index_vault()` (lines 65-92): result is `(exit code, upserted batch)`.
`none` means no `collection.upsert` call happened.  A missing vault root
prints to stderr and returns 1; an empty batch prints
"No documents to index." and returns 0; otherwise the whole batch is
upserted and the run returns 0. -/
def index_vault (vaultExists : Bool) (files : List (String × Option (List Char))) :
    Nat × Option (List VEntry) :=
  if !vaultExists then (1, none)
  else
    let es := indexEntries files
    if es.isEmpty then (0, none) else (0, some es)

/-- Modelled from the spec, for comparison with the source (claim C1):
ids computed as `sourcePath + ":" + sequenceIndex` where `sequenceIndex`
is the 0-based position of the chunk among the chunks of the *same*
document. -/
def specClaimedIds (files : List (String × Option (List Char))) : List String :=
  files.flatMap (fun f =>
    match f.2 with
    | none => []
    | some text =>
      (List.range (chunk_md text f.1 1000 200).length).map
        (fun k => f.1 ++ ":" ++ toString k))

/-- Insert-or-replace upsert of a single entry into an association list
keyed by id (the ChromaDB `collection.upsert` contract for one id). -/
def upsertOne (store : List (String × VEntry)) (e : VEntry) : List (String × VEntry) :=
  if store.any (fun p => p.1 = e.id) then
    store.map (fun p => if p.1 = e.id then (p.1, e) else p)
  else store ++ [(e.id, e)]

/-- Upsert a whole batch, left to right. -/
def upsertAll (store : List (String × VEntry)) (es : List VEntry) : List (String × VEntry) :=
  es.foldl upsertOne store

/-! Query model: `src/scripts/vault/query_vault.py`. -/

/-- A metadata dict as used by `query` (lines 47-48): only the `path` and
`source` keys are ever read. -/
structure QMeta where
  path : Option String
  source : Option String
deriving DecidableEq, Repr

/-- The response shape of `collection.query`: `results["documents"]` and
`results["metadatas"]` are lists of per-query lists. -/
structure QueryResults where
  documents : List (List (List Char))
  metadatas : List (List QMeta)
deriving DecidableEq, Repr

/-- Line 47, `results["metadatas"][0][i] if results["metadatas"] else {}`:
an empty `metadatas` yields the empty dict; otherwise an out-of-range `i`
raises (modelled as an error, which line 54's `except` turns into a
query failure). -/
def metaAt (rs : QueryResults) (i : Nat) : Except String QMeta :=
  match rs.metadatas with
  | [] => Except.ok { path := none, source := none }
  | m0 :: _ =>
    match m0[i]? with
    | some m => Except.ok m
    | none => Except.error "list index out of range"

/-- Line 48, `meta.get("path", meta.get("source", "unknown"))`. -/
def sourceOf (m : QMeta) : String :=
  match m.path with
  | some p => p
  | none =>
    match m.source with
    | some s => s
    | none => "unknown"

/-- Line 49, `doc[:500] + "..." if len(doc) > 500 else doc`. -/
def excerptOf (doc : List Char) : List Char :=
  if 500 < doc.length then doc.take 500 ++ ('.' :: '.' :: '.' :: []) else doc

/-- The `for i, doc in enumerate(results["documents"][0]):` loop
(lines 46-52): for each returned document, the printed
`(source, excerpt)` pair.  A metadata lookup error aborts the loop
(caught by line 54). -/
def renderAll (rs : QueryResults) : List (List Char) → Nat → Except String (List (String × List Char))
  | [], _ => Except.ok []
  | doc :: ds, i =>
    match metaAt rs i with
    | Except.error e => Except.error e
    | Except.ok m =>
      match renderAll rs ds (i + 1) with
      | Except.error e => Except.error e
      | Except.ok rest => Except.ok ((sourceOf m, excerptOf doc) :: rest)

/-- The observable outcome of `query` (lines 41-56): a caught exception
(printed to stderr, `sys.exit(1)`), the "No relevant results found."
message (normal return), or the rendered result list (normal return). -/
inductive QueryOutcome where
  | failure (msg : String)
  | noResults
  | results (rendered : List (String × List Char))
deriving DecidableEq, Repr

/-- Function `query(text, n)` (lines 41-56), with the vector store call abstracted
as its `Except` result: `Except.error` models `collection.query`
raising. -/
def query (resp : Except String QueryResults) : QueryOutcome :=
  match resp with
  | Except.error e => QueryOutcome.failure ("Query error: " ++ e)
  | Except.ok rs =>
    match rs.documents with
    | [] => QueryOutcome.noResults
    | d0 :: _ =>
      if d0.isEmpty then QueryOutcome.noResults
      else
        match renderAll rs d0 0 with
        | Except.error e => QueryOutcome.failure ("Query error: " ++ e)
        | Except.ok rendered => QueryOutcome.results rendered

/-- Process exit code of a query outcome: `sys.exit(1)` on the caught
exception path, normal termination (0) otherwise. -/
def exitCode : QueryOutcome → Nat
  | QueryOutcome.failure _ => 1
  | QueryOutcome.noResults => 0
  | QueryOutcome.results _ => 0

/-! ## Helper lemmas about the chunking loop -/

theorem chunkSteps_some (content : List Char) (size overlap : Nat) (ho : overlap < size) :
    ∀ (fuel start : Nat), content.length - start ≤ fuel →
      ∃ res, chunkSteps content size overlap fuel start = some res := by
  intro fuel
  induction fuel with
  | zero =>
    intro start h
    have hns : ¬ start < content.length := by omega
    exact ⟨[], by rw [chunkSteps]; simp [hns]⟩
  | succ n ih =>
    intro start h
    by_cases hs : start < content.length
    · obtain ⟨res, hres⟩ := ih (start + size - overlap) (by omega)
      refine ⟨if ((content.drop start).take size).any (fun c => !(isSpace c)) then
          (start, (content.drop start).take size) :: res else res, ?_⟩
      rw [chunkSteps]
      simp only [hs, if_true]
      rw [hres]
    · exact ⟨[], by rw [chunkSteps]; simp [hs]⟩

theorem chunkSteps_mem (content : List Char) (size overlap : Nat) :
    ∀ (fuel start : Nat) (res : List (Nat × List Char)),
      chunkSteps content size overlap fuel start = some res →
      ∀ q ∈ res, q.2 = (content.drop q.1).take size ∧ q.1 < content.length ∧
        q.2.any (fun c => !(isSpace c)) = true := by
  intro fuel
  induction fuel with
  | zero =>
    intro start res h q hq
    rw [chunkSteps] at h
    by_cases hs : start < content.length
    · simp [hs] at h
    · simp only [hs, if_false, Option.some.injEq] at h
      subst h
      simp at hq
  | succ n ih =>
    intro start res h q hq
    rw [chunkSteps] at h
    by_cases hs : start < content.length
    · simp only [hs, if_true] at h
      cases hrec : chunkSteps content size overlap n (start + size - overlap) with
      | none => rw [hrec] at h; simp at h
      | some rest =>
        rw [hrec] at h
        simp only [Option.some.injEq] at h
        have hrest : ∀ q ∈ rest, q.2 = (content.drop q.1).take size ∧
            q.1 < content.length ∧
            q.2.any (fun c => !(isSpace c)) = true := ih _ _ hrec
        by_cases hany : ((content.drop start).take size).any (fun c => !(isSpace c)) = true
        · rw [if_pos hany] at h
          subst h
          rcases List.mem_cons.mp hq with hq' | hq'
          · subst hq'
            exact ⟨rfl, hs, hany⟩
          · exact hrest q hq'
        · rw [if_neg hany] at h
          subst h
          exact hrest q hq
    · simp only [hs, if_false, Option.some.injEq] at h
      subst h
      simp at hq

/-! ## Structure of normalized text -/

theorem dropWhile_head_not (p : Char → Bool) :
    ∀ (l : List Char) (c : Char), (l.dropWhile p).head? = some c → p c = false := by
  intro l
  induction l with
  | nil => intro c h; simp [List.dropWhile] at h
  | cons a l ih =>
    intro c h
    by_cases hp : p a
    · rw [List.dropWhile_cons, if_pos hp] at h
      exact ih c h
    · rw [List.dropWhile_cons, if_neg hp] at h
      simp only [List.head?_cons, Option.some.injEq] at h
      subst h
      simpa using hp

theorem collapseAux_true_head (cs : List Char) :
    ∀ c, (collapseAux true cs).head? = some c → isSpace c = false := by
  induction cs with
  | nil => intro c h; simp [collapseAux] at h
  | cons a l ih =>
    intro c h
    by_cases ha : isSpace a
    · rw [collapseAux, if_pos ha, if_pos rfl] at h
      exact ih c h
    · rw [collapseAux, if_neg ha] at h
      simp only [List.head?_cons, Option.some.injEq] at h
      subst h
      simpa using ha

theorem collapseAux_chain (cs : List Char) :
    ∀ prev, List.Chain' (fun a b => isSpace a = false ∨ isSpace b = false)
      (collapseAux prev cs) := by
  induction cs with
  | nil => intro prev; simp [collapseAux]
  | cons a l ih =>
    intro prev
    by_cases ha : isSpace a
    · cases prev with
      | true =>
        rw [collapseAux, if_pos ha, if_pos rfl]
        exact ih true
      | false =>
        rw [collapseAux, if_pos ha, if_neg (by simp)]
        rw [List.chain'_cons']
        refine ⟨fun y hy => Or.inr ?_, ih true⟩
        exact collapseAux_true_head l y (Option.mem_def.mp hy)
    · rw [collapseAux, if_neg ha]
      rw [List.chain'_cons']
      refine ⟨fun y _ => Or.inl (by simpa using ha), ih false⟩

theorem collapseAux_getLast (cs : List Char) :
    ∀ (prev : Bool) (x : Char), cs.getLast? = some x → isSpace x = false →
      (collapseAux prev cs).getLast? = some x := by
  induction cs with
  | nil => intro prev x h _; simp at h
  | cons a l ih =>
    intro prev x h hx
    cases l with
    | nil =>
      simp only [List.getLast?_singleton, Option.some.injEq] at h
      subst h
      have ha : isSpace a = false := hx
      simp [collapseAux, ha]
    | cons b m =>
      have hlast : (b :: m).getLast? = some x := by rwa [List.getLast?_cons_cons] at h
      have htail : ∀ prev', (collapseAux prev' (b :: m)).getLast? = some x :=
        fun prev' => ih prev' x hlast hx
      by_cases ha : isSpace a
      · cases prev with
        | true =>
          rw [collapseAux, if_pos ha, if_pos rfl]
          exact htail true
        | false =>
          rw [collapseAux, if_pos ha, if_neg (by simp)]
          cases hc : collapseAux true (b :: m) with
          | nil =>
            have hcontra := htail true
            rw [hc] at hcontra
            simp at hcontra
          | cons r rs =>
            rw [List.getLast?_cons_cons, ← hc]
            exact htail true
      · rw [collapseAux, if_neg ha]
        cases hc : collapseAux false (b :: m) with
        | nil =>
          have hcontra := htail false
          rw [hc] at hcontra
          simp at hcontra
        | cons r rs =>
          rw [List.getLast?_cons_cons, ← hc]
          exact htail false

theorem trim_getLast_not_space (s : List Char) (c : Char) :
    (trim s).getLast? = some c → isSpace c = false := by
  intro h
  rw [trim, List.getLast?_reverse] at h
  exact dropWhile_head_not isSpace _ c h

theorem normalize_chain (s : List Char) :
    List.Chain' (fun a b => isSpace a = false ∨ isSpace b = false) (normalize s) :=
  collapseAux_chain (trim s) false

theorem normalize_getLast_not_space (s : List Char) :
    ∀ c, (normalize s).getLast? = some c → isSpace c = false := by
  intro c h
  rw [normalize, collapse] at h
  cases htr : trim s with
  | nil => rw [htr] at h; simp [collapseAux] at h
  | cons a l =>
    rw [htr] at h
    cases hlast : (a :: l).getLast? with
    | none => simp at hlast
    | some x =>
      have hx : isSpace x = false :=
        trim_getLast_not_space s x (by rw [htr]; exact hlast)
      rw [collapseAux_getLast (a :: l) false x hlast hx] at h
      cases h
      exact hx

/-! ## Every window of a normalized text contains a non-space character
(when the window size is at least 2) -/

theorem window_any_not_space (content : List Char)
    (hchain : List.Chain' (fun a b => isSpace a = false ∨ isSpace b = false) content)
    (hlast : ∀ c, content.getLast? = some c → isSpace c = false)
    {size : Nat} (hs : 2 ≤ size) {start : Nat} (hstart : start < content.length) :
    ((content.drop start).take size).any (fun c => !(isSpace c)) = true := by
  have hwlen : ((content.drop start).take size).length =
      min size (content.length - start) := by
    rw [List.length_take, List.length_drop]
  rcases Nat.lt_or_ge (content.length - start) 2 with hc | hc
  · -- the window is the final character of the text
    have h0 : 0 < ((content.drop start).take size).length := by omega
    have hw0 : ((content.drop start).take size)[0] = content[start] := by
      rw [List.getElem_take, List.getElem_drop]
      simp
    have hlastel : content.getLast? = some content[start] := by
      rw [List.getLast?_eq_getElem?]
      have : content.length - 1 = start := by omega
      rw [this]
      exact List.getElem?_eq_some_iff.mpr ⟨hstart, rfl⟩
    refine List.any_eq_true.mpr ⟨_, List.getElem_mem h0, ?_⟩
    rw [hw0]
    simp [hlast _ hlastel]
  · -- the window contains two adjacent characters of the text
    have hstart1 : start + 1 < content.length := by omega
    have hadj := List.chain'_iff_get.mp hchain start (by omega)
    have h0 : 0 < ((content.drop start).take size).length := by omega
    have h1 : 1 < ((content.drop start).take size).length := by omega
    have hw0 : ((content.drop start).take size)[0] = content[start] := by
      rw [List.getElem_take, List.getElem_drop]
      simp
    have hw1 : ((content.drop start).take size)[1] = content[start + 1] := by
      rw [List.getElem_take, List.getElem_drop]
    rcases hadj with hns | hns
    · refine List.any_eq_true.mpr ⟨_, List.getElem_mem h0, ?_⟩
      rw [hw0]
      simp only [List.get_eq_getElem] at hns
      simp [hns]
    · refine List.any_eq_true.mpr ⟨_, List.getElem_mem h1, ?_⟩
      rw [hw1]
      simp only [List.get_eq_getElem] at hns
      simp [hns]

/-! ## Coverage and boundary lemmas for the chunking loop -/

theorem chunkSteps_cover (content : List Char) (size overlap : Nat)
    (ho : overlap < size) (hs : 2 ≤ size)
    (hchain : List.Chain' (fun a b => isSpace a = false ∨ isSpace b = false) content)
    (hlast : ∀ c, content.getLast? = some c → isSpace c = false) :
    ∀ (fuel start : Nat) (res : List (Nat × List Char)),
      chunkSteps content size overlap fuel start = some res →
      ∀ p, start ≤ p → p < content.length →
        ∃ q ∈ res, q.1 ≤ p ∧ p < q.1 + q.2.length := by
  intro fuel
  induction fuel with
  | zero =>
    intro start res h p hsp hp
    have hstart : start < content.length := by omega
    rw [chunkSteps] at h
    simp [hstart] at h
  | succ n ih =>
    intro start res h p hsp hp
    have hstart : start < content.length := by omega
    rw [chunkSteps] at h
    simp only [hstart, if_true] at h
    cases hrec : chunkSteps content size overlap n (start + size - overlap) with
    | none => rw [hrec] at h; simp at h
    | some rest =>
      rw [hrec] at h
      simp only [Option.some.injEq] at h
      rw [if_pos (window_any_not_space content hchain hlast hs hstart)] at h
      subst h
      by_cases hpc : p < start + ((content.drop start).take size).length
      · exact ⟨(start, (content.drop start).take size), List.mem_cons_self _ _, hsp, hpc⟩
      · have hwlen : ((content.drop start).take size).length =
            min size (content.length - start) := by
          rw [List.length_take, List.length_drop]
        have hcase : start + size - overlap ≤ p := by
          rw [hwlen] at hpc
          omega
        obtain ⟨q, hq, h1, h2⟩ := ih (start + size - overlap) rest hrec p hcase hp
        exact ⟨q, List.mem_cons_of_mem _ hq, h1, h2⟩

theorem chunkSteps_head (content : List Char) (size overlap : Nat) (hs : 2 ≤ size)
    (hchain : List.Chain' (fun a b => isSpace a = false ∨ isSpace b = false) content)
    (hlast : ∀ c, content.getLast? = some c → isSpace c = false)
    (fuel start : Nat) (res : List (Nat × List Char))
    (h : chunkSteps content size overlap fuel start = some res)
    (hstart : start < content.length) :
    res.head? = some (start, (content.drop start).take size) := by
  cases fuel with
  | zero => rw [chunkSteps] at h; simp [hstart] at h
  | succ n =>
    rw [chunkSteps] at h
    simp only [hstart, if_true] at h
    cases hrec : chunkSteps content size overlap n (start + size - overlap) with
    | none => rw [hrec] at h; simp at h
    | some rest =>
      rw [hrec] at h
      simp only [Option.some.injEq] at h
      rw [if_pos (window_any_not_space content hchain hlast hs hstart)] at h
      subst h
      rfl

theorem chunkSteps_getLast (content : List Char) (size overlap : Nat)
    (hs : 2 ≤ size)
    (hchain : List.Chain' (fun a b => isSpace a = false ∨ isSpace b = false) content)
    (hlast : ∀ c, content.getLast? = some c → isSpace c = false) :
    ∀ (fuel start : Nat) (res : List (Nat × List Char)),
      chunkSteps content size overlap fuel start = some res →
      start < content.length →
      ∃ q, res.getLast? = some q ∧ q.1 + q.2.length = content.length := by
  intro fuel
  induction fuel with
  | zero =>
    intro start res h hstart
    rw [chunkSteps] at h
    simp [hstart] at h
  | succ n ih =>
    intro start res h hstart
    rw [chunkSteps] at h
    simp only [hstart, if_true] at h
    cases hrec : chunkSteps content size overlap n (start + size - overlap) with
    | none => rw [hrec] at h; simp at h
    | some rest =>
      rw [hrec] at h
      simp only [Option.some.injEq] at h
      rw [if_pos (window_any_not_space content hchain hlast hs hstart)] at h
      subst h
      by_cases hnext : start + size - overlap < content.length
      · obtain ⟨q, hq, hend⟩ := ih _ _ hrec hnext
        refine ⟨q, ?_, hend⟩
        cases rest with
        | nil => simp at hq
        | cons r rs => rw [List.getLast?_cons_cons]; exact hq
      · have hrest : rest = [] := by
          rw [chunkSteps.eq_def] at hrec
          simp only [hnext, if_false, Option.some.injEq] at hrec
          exact hrec.symm
        subst hrest
        refine ⟨(start, (content.drop start).take size), by simp, ?_⟩
        have : ((content.drop start).take size).length =
            min size (content.length - start) := by
          rw [List.length_take, List.length_drop]
        simp only [this]
        omega

/-! ## The global chunk counter and the produced ids -/

theorem entriesFrom_length (rel : String) :
    ∀ (cs : List (List Char × String)) (i : Nat), (entriesFrom rel cs i).length = cs.length := by
  intro cs
  induction cs with
  | nil => intro i; rfl
  | cons c cs ih => intro i; simp [entriesFrom, ih]

theorem entriesFrom_getElem (rel : String) :
    ∀ (cs : List (List Char × String)) (i n : Nat) (e : VEntry),
      (entriesFrom rel cs i)[n]? = some e →
      e.path = rel ∧ e.id = rel ++ ":" ++ toString (i + n) := by
  intro cs
  induction cs with
  | nil => intro i n e h; simp [entriesFrom] at h
  | cons c cs ih =>
    intro i n e h
    cases c with
    | mk ctext cpath =>
      cases n with
      | zero =>
        rw [entriesFrom] at h
        simp only [List.getElem?_cons_zero, Option.some.injEq] at h
        subst h
        exact ⟨rfl, rfl⟩
      | succ m =>
        rw [entriesFrom] at h
        simp only [List.getElem?_cons_succ] at h
        have := ih (i + 1) m e h
        refine ⟨this.1, ?_⟩
        rw [this.2]
        congr 2
        omega

theorem collectEntries_getElem :
    ∀ (files : List (String × Option (List Char))) (i n : Nat) (e : VEntry),
      (collectEntries files i)[n]? = some e →
      e.id = e.path ++ ":" ++ toString (i + n) := by
  intro files
  induction files with
  | nil => intro i n e h; simp [collectEntries] at h
  | cons f fs ih =>
    intro i n e h
    cases f with
    | mk rel t? =>
      cases t? with
      | none =>
        rw [collectEntries] at h
        exact ih i n e h
      | some text =>
        rw [collectEntries] at h
        rcases Nat.lt_or_ge n (entriesFrom rel (chunk_md text rel 1000 200) i).length
          with hlt | hge
        · rw [List.getElem?_append_left hlt] at h
          obtain ⟨hpath, hid⟩ := entriesFrom_getElem rel _ i n e h
          rw [hid, hpath]
        · rw [List.getElem?_append_right hge] at h
          have hlen : (entriesFrom rel (chunk_md text rel 1000 200) i).length =
              (chunk_md text rel 1000 200).length := entriesFrom_length rel _ i
          have hid := ih (i + (chunk_md text rel 1000 200).length)
            (n - (entriesFrom rel (chunk_md text rel 1000 200) i).length) e h
          rw [hid]
          congr 2
          omega

/-! ## Keys of the store under upsert -/

/-- The ids present in the store, in order. -/
def keys (store : List (String × VEntry)) : List String := store.map Prod.fst

theorem containsKey_iff (store : List (String × VEntry)) (k : String) :
    store.any (fun p => p.1 = k) = true ↔ k ∈ keys store := by
  rw [List.any_eq_true, keys]
  constructor
  · rintro ⟨p, hp, hpk⟩
    exact List.mem_map.mpr ⟨p, hp, by simpa using hpk⟩
  · intro hk
    obtain ⟨p, hp, hpk⟩ := List.mem_map.mp hk
    exact ⟨p, hp, by simpa using hpk⟩

theorem upsertOne_of_mem (store : List (String × VEntry)) (e : VEntry)
    (h : e.id ∈ keys store) :
    keys (upsertOne store e) = keys store ∧ (upsertOne store e).length = store.length := by
  rw [upsertOne, if_pos ((containsKey_iff store e.id).mpr h)]
  constructor
  · rw [keys, keys, List.map_map]
    apply List.map_congr_left
    intro a _
    by_cases ha : a.1 = e.id <;> simp [ha]
  · simp

theorem upsertOne_of_not_mem (store : List (String × VEntry)) (e : VEntry)
    (h : ¬ e.id ∈ keys store) :
    keys (upsertOne store e) = keys store ++ [e.id] := by
  rw [upsertOne, if_neg (fun hc => h ((containsKey_iff store e.id).mp hc))]
  simp [keys]

theorem mem_keys_upsertOne (store : List (String × VEntry)) (e : VEntry) (k : String)
    (h : k ∈ keys store) : k ∈ keys (upsertOne store e) := by
  by_cases he : e.id ∈ keys store
  · rw [(upsertOne_of_mem store e he).1]; exact h
  · rw [upsertOne_of_not_mem store e he]; exact List.mem_append_left _ h

theorem self_mem_keys_upsertOne (store : List (String × VEntry)) (e : VEntry) :
    e.id ∈ keys (upsertOne store e) := by
  by_cases he : e.id ∈ keys store
  · rw [(upsertOne_of_mem store e he).1]; exact he
  · rw [upsertOne_of_not_mem store e he]
    exact List.mem_append_right _ (List.mem_singleton.mpr rfl)

theorem mem_keys_upsertAll (es : List VEntry) :
    ∀ (store : List (String × VEntry)) (k : String),
      k ∈ keys store → k ∈ keys (upsertAll store es) := by
  induction es with
  | nil => intro store k h; exact h
  | cons e es ih =>
    intro store k h
    rw [upsertAll, List.foldl_cons]
    exact ih (upsertOne store e) k (mem_keys_upsertOne store e k h)

theorem ids_mem_keys_upsertAll (es : List VEntry) :
    ∀ (store : List (String × VEntry)) (e : VEntry), e ∈ es →
      e.id ∈ keys (upsertAll store es) := by
  induction es with
  | nil => intro _ _ h; simp at h
  | cons e' es ih =>
    intro store e he
    rw [upsertAll, List.foldl_cons]
    rcases List.mem_cons.mp he with he' | he'
    · subst he'
      exact mem_keys_upsertAll es (upsertOne store e) e.id
        (self_mem_keys_upsertOne store e)
    · exact ih (upsertOne store e') e he'

theorem upsertAll_of_all_mem (es : List VEntry) :
    ∀ (store : List (String × VEntry)), (∀ e ∈ es, e.id ∈ keys store) →
      keys (upsertAll store es) = keys store ∧
        (upsertAll store es).length = store.length := by
  induction es with
  | nil => intro store _; exact ⟨rfl, rfl⟩
  | cons e es ih =>
    intro store h
    have he : e.id ∈ keys store := h e (List.mem_cons_self _ _)
    obtain ⟨hk1, hl1⟩ := upsertOne_of_mem store e he
    rw [upsertAll, List.foldl_cons]
    have hrest : ∀ x ∈ es, x.id ∈ keys (upsertOne store e) := by
      intro x hx
      rw [hk1]
      exact h x (List.mem_cons_of_mem _ hx)
    obtain ⟨hk2, hl2⟩ := ih (upsertOne store e) hrest
    rw [upsertAll] at hk2 hl2
    exact ⟨by rw [hk2, hk1], by rw [hl2, hl1]⟩

/-! ## Evaluation lemmas for the chunking loop on whitespace-free text -/

theorem chunkSteps_stop (content : List Char) (size overlap fuel start : Nat)
    (h : ¬ start < content.length) :
    chunkSteps content size overlap fuel start = some [] := by
  rw [chunkSteps.eq_def]
  simp [h]

theorem chunkSteps_step (content : List Char) (size overlap fuel start : Nat)
    (h : start < content.length) (rest : List (Nat × List Char))
    (hrec : chunkSteps content size overlap fuel (start + size - overlap) = some rest) :
    chunkSteps content size overlap (fuel + 1) start =
      some (if ((content.drop start).take size).any (fun c => !(isSpace c)) then
        (start, (content.drop start).take size) :: rest else rest) := by
  rw [chunkSteps, if_pos h, hrec]

theorem chunkSteps_agree (content : List Char) (size overlap : Nat) :
    ∀ (f1 start : Nat) (r1 r2 : List (Nat × List Char)) (f2 : Nat),
      chunkSteps content size overlap f1 start = some r1 →
      chunkSteps content size overlap f2 start = some r2 → r1 = r2 := by
  intro f1
  induction f1 with
  | zero =>
    intro start r1 r2 f2 h1 h2
    by_cases hs : start < content.length
    · rw [chunkSteps] at h1
      simp [hs] at h1
    · rw [chunkSteps_stop content size overlap 0 start hs] at h1
      rw [chunkSteps_stop content size overlap f2 start hs] at h2
      simp only [Option.some.injEq] at h1 h2
      rw [← h1, ← h2]
  | succ n ih =>
    intro start r1 r2 f2 h1 h2
    by_cases hs : start < content.length
    · cases f2 with
      | zero => rw [chunkSteps] at h2; simp [hs] at h2
      | succ m =>
        rw [chunkSteps] at h1 h2
        simp only [hs, if_true] at h1 h2
        cases hr1 : chunkSteps content size overlap n (start + size - overlap) with
        | none => rw [hr1] at h1; simp at h1
        | some rest1 =>
          cases hr2 : chunkSteps content size overlap m (start + size - overlap) with
          | none => rw [hr2] at h2; simp at h2
          | some rest2 =>
            rw [hr1] at h1
            rw [hr2] at h2
            simp only [Option.some.injEq] at h1 h2
            have hr := ih (start + size - overlap) rest1 rest2 m hr1 hr2
            subst hr
            rw [← h1, ← h2]
    · rw [chunkSteps_stop content size overlap (n + 1) start hs] at h1
      rw [chunkSteps_stop content size overlap f2 start hs] at h2
      simp only [Option.some.injEq] at h1 h2
      rw [← h1, ← h2]

theorem dropWhile_isSpace_of_all (l : List Char) (h : ∀ c ∈ l, isSpace c = false) :
    l.dropWhile isSpace = l := by
  cases l with
  | nil => rfl
  | cons a l =>
    rw [List.dropWhile_cons, if_neg (by simp [h a (List.mem_cons_self _ _)])]

theorem trim_of_all (l : List Char) (h : ∀ c ∈ l, isSpace c = false) : trim l = l := by
  rw [trim, dropWhile_isSpace_of_all l h,
    dropWhile_isSpace_of_all l.reverse (fun c hc => h c (List.mem_reverse.mp hc)),
    List.reverse_reverse]

theorem collapseAux_of_all (l : List Char) :
    ∀ prev, (∀ c ∈ l, isSpace c = false) → collapseAux prev l = l := by
  induction l with
  | nil => intro prev _; rfl
  | cons a l ih =>
    intro prev h
    rw [collapseAux, if_neg (by simp [h a (List.mem_cons_self _ _)])]
    rw [ih false (fun c hc => h c (List.mem_cons_of_mem _ hc))]

theorem normalize_of_all (l : List Char) (h : ∀ c ∈ l, isSpace c = false) :
    normalize l = l := by
  rw [normalize, trim_of_all l h, collapse, collapseAux_of_all l false h]

theorem replicate_a_nonspace (n : Nat) : ∀ c ∈ List.replicate n 'a', isSpace c = false := by
  intro c hc
  rw [List.eq_of_mem_replicate hc]
  decide

theorem any_replicate_a (n : Nat) (h : 0 < n) :
    (List.replicate n 'a').any (fun c => !(isSpace c)) = true := by
  cases n with
  | zero => omega
  | succ m =>
    rw [List.replicate_succ, List.any_cons]
    have : isSpace 'a' = false := by decide
    simp [this]

/-! ## Documents that contribute no chunks -/

theorem chunk_md_nil (rel : String) (s o : Nat) : chunk_md [] rel s o = [] := rfl

theorem collectEntries_of_empty :
    ∀ (files : List (String × Option (List Char))) (i : Nat),
      (∀ f ∈ files, f.2 = none ∨ f.2 = some []) → collectEntries files i = [] := by
  intro files
  induction files with
  | nil => intro i _; rfl
  | cons f fs ih =>
    intro i h
    cases f with
    | mk rel t? =>
      rcases h (rel, t?) (List.mem_cons_self _ _) with ht | ht
      · simp only at ht
        subst ht
        rw [collectEntries]
        exact ih i (fun g hg => h g (List.mem_cons_of_mem _ hg))
      · simp only at ht
        subst ht
        rw [collectEntries, chunk_md_nil]
        rw [entriesFrom]
        simp only [List.nil_append, List.length_nil, Nat.add_zero]
        exact ih i (fun g hg => h g (List.mem_cons_of_mem _ hg))

/-! ## The claims -/

/-- C1, counterexample.  The spec says each chunk id is
`sourcePath + ":" + sequenceIndex` with a per-document 0-based sequence
index.  The code threads one global counter across all files, so for a
vault of two one-chunk documents the second id is `"b.md:1"`, not the
`"b.md:0"` the claim predicts. -/
theorem c1_per_document_ids_counterexample :
    (indexEntries [("a.md", some ['x']), ("b.md", some ['y'])]).map VEntry.id ≠
      specClaimedIds [("a.md", some ['x']), ("b.md", some ['y'])] := by
  decide

/-- C1, amended: the id of the n-th chunk produced by an indexing run
(counting from 0 across *all* documents, in enumeration order) is that
chunk's source path followed by ":" followed by n.  The numeric suffix is
the global running chunk counter, so it depends on how many chunks earlier
files contributed, i.e. on the enumeration order. -/
theorem c1_global_counter_ids (files : List (String × Option (List Char)))
    (n : Nat) (e : VEntry) (h : (indexEntries files)[n]? = some e) :
    e.id = e.path ++ ":" ++ toString n := by
  have hg := collectEntries_getElem files 0 n e h
  simpa using hg

theorem c1_global_counter_ids_witness :
    (indexEntries [("a.md", some ['x']), ("b.md", some ['y'])])[1]? =
        some { text := ['y'], path := "b.md", id := "b.md:1" } ∧
      ("b.md:1" : String) = "b.md" ++ ":" ++ toString 1 := by
  constructor
  · decide
  · exact c1_global_counter_ids [("a.md", some ['x']), ("b.md", some ['y'])] 1
      { text := ['y'], path := "b.md", id := "b.md:1" } (by decide)

/-- C2: one indexing run is a pure function of the enumerated vault
content, so a second run over the identical ordered content produces the
identical (text, metadata, id) batch; upserting that same batch a second
time replaces every entry in place and leaves the total number of store
entries unchanged, for every starting store. -/
theorem c2_reindex_leaves_count_unchanged
    (files : List (String × Option (List Char))) (store : List (String × VEntry)) :
    (upsertAll (upsertAll store (indexEntries files)) (indexEntries files)).length =
      (upsertAll store (indexEntries files)).length :=
  (upsertAll_of_all_mem (indexEntries files) (upsertAll store (indexEntries files))
    (fun e he => ids_mem_keys_upsertAll (indexEntries files) store e he)).2

/-- C3: on the document consisting of "a" repeated 2500 times, with chunk
size 1000 and overlap 200, the chunker emits exactly 4 chunks, whose start
offsets are 0, 800, 1600 and 2400, each chunk being the window of the text
from its start offset; the chunk starting at 2400 has length 100. -/
theorem c3_windowing_concrete :
    chunk_starts (List.replicate 2500 'a') 1000 200 =
      [(0, List.replicate 1000 'a'), (800, List.replicate 1000 'a'),
        (1600, List.replicate 900 'a'), (2400, List.replicate 100 'a')] := by
  have hlen : (List.replicate 2500 'a').length = 2500 := List.length_replicate 2500 'a'
  have hnorm : normalize (List.replicate 2500 'a') = List.replicate 2500 'a' :=
    normalize_of_all _ (replicate_a_nonspace 2500)
  have h0 : chunkSteps (List.replicate 2500 'a') 1000 200 0 3200 = some [] :=
    chunkSteps_stop _ _ _ _ _ (by rw [hlen]; norm_num)
  have h1 := chunkSteps_step (List.replicate 2500 'a') 1000 200 0 2400
    (by rw [hlen]; norm_num) [] h0
  rw [List.drop_replicate, List.take_replicate] at h1
  norm_num at h1
  rw [if_pos (show isSpace 'a' = false from by decide)] at h1
  have h2 := chunkSteps_step (List.replicate 2500 'a') 1000 200 1 1600
    (by rw [hlen]; norm_num) _ h1
  rw [List.drop_replicate, List.take_replicate] at h2
  norm_num at h2
  rw [if_pos (show isSpace 'a' = false from by decide)] at h2
  have h3 := chunkSteps_step (List.replicate 2500 'a') 1000 200 2 800
    (by rw [hlen]; norm_num) _ h2
  rw [List.drop_replicate, List.take_replicate] at h3
  norm_num at h3
  rw [if_pos (show isSpace 'a' = false from by decide)] at h3
  have h4 := chunkSteps_step (List.replicate 2500 'a') 1000 200 3 0
    (by rw [hlen]; norm_num) _ h3
  rw [List.drop_replicate, List.take_replicate] at h4
  norm_num at h4
  rw [if_pos (show isSpace 'a' = false from by decide)] at h4
  obtain ⟨res, hres⟩ := chunkSteps_some (List.replicate 2500 'a') 1000 200 (by norm_num)
    (List.replicate 2500 'a').length 0 (by omega)
  rw [chunk_starts, hnorm, hres]
  simp only [Option.getD_some]
  exact chunkSteps_agree (List.replicate 2500 'a') 1000 200
    (List.replicate 2500 'a').length 0 res _ 4 hres h4

/-- C4, counterexample.  With chunk size 1 and overlap 0 on the text
"a b", the middle window consists of the single space character; it fails
the `if chunk.strip():` test and is never emitted, so position 1 of the
normalized text is covered by no emitted chunk. -/
theorem c4_coverage_counterexample :
    ¬ (∀ p, p < (normalize ['a', ' ', 'b']).length →
        ∃ q ∈ chunk_starts ['a', ' ', 'b'] 1 0, q.1 ≤ p ∧ p < q.1 + q.2.length) := by
  decide

/-- C4, amended: for chunk size S ≥ 2 and overlap O < S, over a text whose
normalization is nonempty, no window is whitespace-only (normalization
leaves no two adjacent whitespace characters and no trailing whitespace),
so every emitted window survives; the emitted windows cover every
character position of the normalized text at least once, the first chunk
starts at offset 0, and the final chunk ends exactly at the length of the
normalized text.  (The original claim fails for S = 1, where a
single-space window is dropped, and for a whitespace-only text, where no
chunk exists at all.) -/
theorem c4_coverage (T : List Char) (S O : Nat) (hs : 2 ≤ S) (ho : O < S)
    (hne : normalize T ≠ []) :
    (∀ p, p < (normalize T).length →
      ∃ q ∈ chunk_starts T S O, q.1 ≤ p ∧ p < q.1 + q.2.length) ∧
    (∃ w, (chunk_starts T S O).head? = some (0, w)) ∧
    (∃ q, (chunk_starts T S O).getLast? = some q ∧
      q.1 + q.2.length = (normalize T).length) := by
  have hlen : 0 < (normalize T).length := List.length_pos.mpr hne
  obtain ⟨res, hres⟩ := chunkSteps_some (normalize T) S O ho (normalize T).length 0 (by omega)
  have hcs : chunk_starts T S O = res := by
    rw [chunk_starts, hres]
    rfl
  refine ⟨?_, ?_, ?_⟩
  · intro p hp
    rw [hcs]
    exact chunkSteps_cover (normalize T) S O ho hs (normalize_chain T)
      (normalize_getLast_not_space T) _ 0 res hres p (Nat.zero_le _) hp
  · rw [hcs]
    refine ⟨((normalize T).drop 0).take S, ?_⟩
    exact chunkSteps_head (normalize T) S O hs (normalize_chain T)
      (normalize_getLast_not_space T) _ 0 res hres hlen
  · rw [hcs]
    exact chunkSteps_getLast (normalize T) S O hs (normalize_chain T)
      (normalize_getLast_not_space T) _ 0 res hres hlen

theorem c4_coverage_witness :
    ((2 : Nat) ≤ 2 ∧ (1 : Nat) < 2 ∧ normalize ['a', 'b', ' ', 'c', 'd'] ≠ []) ∧
      ((∀ p, p < (normalize ['a', 'b', ' ', 'c', 'd']).length →
        ∃ q ∈ chunk_starts ['a', 'b', ' ', 'c', 'd'] 2 1, q.1 ≤ p ∧ p < q.1 + q.2.length) ∧
      (∃ w, (chunk_starts ['a', 'b', ' ', 'c', 'd'] 2 1).head? = some (0, w)) ∧
      (∃ q, (chunk_starts ['a', 'b', ' ', 'c', 'd'] 2 1).getLast? = some q ∧
        q.1 + q.2.length = (normalize ['a', 'b', ' ', 'c', 'd']).length)) :=
  ⟨⟨by decide, by decide, by decide⟩,
    c4_coverage ['a', 'b', ' ', 'c', 'd'] 2 1 (by decide) (by decide) (by decide)⟩

/-- C5: normalization is applied once, up front, before windowing, so any
two texts with the same normalization — in particular texts differing only
in whitespace layout — chunk to the identical ordered chunk list for every
chunk size and overlap. -/
theorem c5_whitespace_layout_invariance (T1 T2 : List Char) (path : String) (S O : Nat)
    (h : normalize T1 = normalize T2) :
    chunk_md T1 path S O = chunk_md T2 path S O := by
  rw [chunk_md, chunk_md, chunk_starts, chunk_starts, h]

theorem c5_whitespace_layout_invariance_witness :
    normalize ['a', Char.ofNat 10, 'b'] = normalize [' ', 'a', ' ', ' ', 'b', ' '] ∧
      chunk_md ['a', Char.ofNat 10, 'b'] "n.md" 5 1 =
        chunk_md [' ', 'a', ' ', ' ', 'b', ' '] "n.md" 5 1 :=
  ⟨by decide,
    c5_whitespace_layout_invariance ['a', Char.ofNat 10, 'b'] [' ', 'a', ' ', ' ', 'b', ' ']
      "n.md" 5 1 (by decide)⟩

/-- C6: the source contains no validation of `overlap < chunk_size` at
all.  When `chunk_md` is entered with overlap = chunk size on a nonempty
normalized text, the start offset advances by `chunk_size - overlap = 0`
each iteration, so no finite number of loop iterations ever reaches the
exit condition: the loop diverges instead of the configuration being
rejected before chunking begins.  (The shipped call site always uses the
defaults 1000/200, which satisfy the guard the spec demands.) -/
theorem c6_overlap_eq_size_never_terminates :
    ∀ fuel : Nat, chunkSteps ['a', 'b'] 1 1 fuel 0 = none := by
  intro fuel
  induction fuel with
  | zero =>
    rw [chunkSteps]
    simp
  | succ n ih =>
    rw [chunkSteps]
    simp [ih]

/-- C7: a raised store error during `collection.query` is caught and
reported as a failure with process exit code 1, while an ok response with
zero returned documents is reported as the distinct "No relevant results
found." outcome with exit code 0; a failure outcome is never equal to the
no-results outcome nor to any successful result list, so the two are
always distinguishable. -/
theorem c7_error_vs_no_results (e : String) (rs : QueryResults) :
    (query (Except.error e) = QueryOutcome.failure ("Query error: " ++ e) ∧
      exitCode (query (Except.error e)) = 1) ∧
    ((rs.documents = [] ∨ rs.documents.head? = some []) →
      query (Except.ok rs) = QueryOutcome.noResults ∧
        exitCode (query (Except.ok rs)) = 0) ∧
    (∀ msg rendered, QueryOutcome.failure msg ≠ QueryOutcome.noResults ∧
      QueryOutcome.failure msg ≠ QueryOutcome.results rendered) := by
  refine ⟨⟨rfl, rfl⟩, ?_, ?_⟩
  · intro hd
    obtain ⟨docs, metas⟩ := rs
    cases docs with
    | nil => exact ⟨rfl, rfl⟩
    | cons d0 dtl =>
      have hd0 : d0 = [] := by
        rcases hd with hd | hd
        · exact absurd hd (by simp)
        · simpa using hd
      subst hd0
      exact ⟨rfl, rfl⟩
  · intro msg rendered
    exact ⟨by simp, by simp⟩

theorem c7_error_vs_no_results_witness :
    (({ documents := [], metadatas := [] } : QueryResults).documents = [] ∨
        ({ documents := [], metadatas := [] } : QueryResults).documents.head? = some []) ∧
      query (Except.ok { documents := [], metadatas := [] }) = QueryOutcome.noResults ∧
      exitCode (query (Except.ok { documents := [], metadatas := [] })) = 0 :=
  ⟨Or.inl rfl,
    (c7_error_vs_no_results "timeout" { documents := [], metadatas := [] }).2.1 (Or.inl rfl)⟩

/-- C8, counterexample.  For a matched text longer than 500 characters the
code prints `doc[:500] + "..."`: the printed excerpt carries the
three-character ellipsis marker, so it is neither the first 500 characters
of the text nor any prefix of it. -/
theorem c8_excerpt_counterexample :
    excerptOf (List.replicate 501 'a') ≠ (List.replicate 501 'a').take 500 ∧
    ¬ (excerptOf (List.replicate 501 'a') <+: List.replicate 501 'a') := by
  decide

/-- C8, amended: for every document rendered by a query, the printed
excerpt is the full text when it has at most 500 characters, and the first
500 characters followed by the marker "..." when it is longer; the printed
source attribution is the metadata's `path` field, falling back to the
`source` field when `path` is absent, and to "unknown" when both are
absent. -/
theorem c8_excerpt_and_source (rs : QueryResults) :
    ∀ (docs : List (List Char)) (i : Nat) (out : List (String × List Char)) (j : Nat)
      (doc : List Char) (pr : String × List Char),
      renderAll rs docs i = Except.ok out →
      docs[j]? = some doc → out[j]? = some pr →
      ((doc.length ≤ 500 → pr.2 = doc) ∧
        (500 < doc.length → pr.2 = doc.take 500 ++ ['.', '.', '.'])) ∧
      (∃ m, metaAt rs (i + j) = Except.ok m ∧
        (∀ p, m.path = some p → pr.1 = p) ∧
        (m.path = none → ∀ src, m.source = some src → pr.1 = src) ∧
        (m.path = none → m.source = none → pr.1 = "unknown")) := by
  intro docs
  induction docs with
  | nil => intro i out j doc pr h hd hp; simp at hd
  | cons d ds ih =>
    intro i out j doc pr h hd hp
    rw [renderAll] at h
    cases hm : metaAt rs i with
    | error e => rw [hm] at h; simp at h
    | ok m =>
      rw [hm] at h
      cases hr : renderAll rs ds (i + 1) with
      | error e => rw [hr] at h; simp at h
      | ok rest =>
        rw [hr] at h
        simp only [Except.ok.injEq] at h
        subst h
        cases j with
        | zero =>
          simp only [List.getElem?_cons_zero, Option.some.injEq] at hd hp
          subst hd
          subst hp
          constructor
          · constructor
            · intro hle
              show excerptOf d = d
              rw [excerptOf, if_neg (by omega)]
            · intro hgt
              show excerptOf d = d.take 500 ++ ['.', '.', '.']
              rw [excerptOf, if_pos hgt]
          · refine ⟨m, by simpa using hm, ?_, ?_, ?_⟩
            · intro p hpath
              show sourceOf m = p
              rw [sourceOf, hpath]
            · intro hnone src hsrc
              show sourceOf m = src
              rw [sourceOf, hnone, hsrc]
            · intro hnone hnone'
              show sourceOf m = "unknown"
              rw [sourceOf, hnone, hnone']
        | succ k =>
          simp only [List.getElem?_cons_succ] at hd hp
          have hk := ih (i + 1) rest k doc pr hr hd hp
          have harith : i + 1 + k = i + (k + 1) := by omega
          rw [harith] at hk
          exact hk

theorem c8_excerpt_and_source_witness :
    (renderAll ⟨[[['h', 'i']]], [[⟨some "a.md", none⟩]]⟩ [['h', 'i']] 0 =
        Except.ok [("a.md", ['h', 'i'])] ∧
      ([['h', 'i']] : List (List Char))[0]? = some ['h', 'i'] ∧
      ([("a.md", ['h', 'i'])] : List (String × List Char))[0]? = some ("a.md", ['h', 'i'])) ∧
    ((['h', 'i'] : List Char).length ≤ 500 → ("a.md", (['h', 'i'] : List Char)).2 = ['h', 'i']) ∧
      (500 < (['h', 'i'] : List Char).length →
        ("a.md", (['h', 'i'] : List Char)).2 = (['h', 'i'] : List Char).take 500 ++ ['.', '.', '.']) :=
  ⟨⟨rfl, rfl, rfl⟩,
    (c8_excerpt_and_source ⟨[[['h', 'i']]], [[⟨some "a.md", none⟩]]⟩ [['h', 'i']] 0
        [("a.md", ['h', 'i'])] 0 ['h', 'i'] ("a.md", ['h', 'i']) rfl rfl rfl).1⟩

/-- C9: when every enumerated markdown file is unreadable (skipped by the
`except` branch) or has empty text — in particular when none is found at
all — the run builds an empty batch, performs no upsert, prints
"No documents to index." and exits with code 0. -/
theorem c9_empty_vault (files : List (String × Option (List Char)))
    (h : ∀ f ∈ files, f.2 = none ∨ f.2 = some []) :
    index_vault true files = (0, none) := by
  have hce : indexEntries files = [] := collectEntries_of_empty files 0 h
  rw [index_vault]
  simp [hce]

theorem c9_empty_vault_witness :
    (∀ f ∈ ([("a.md", none), ("b.md", some [])] : List (String × Option (List Char))),
        f.2 = none ∨ f.2 = some []) ∧
      index_vault true [("a.md", none), ("b.md", some [])] = (0, none) :=
  ⟨by decide, c9_empty_vault [("a.md", none), ("b.md", some [])] (by decide)⟩

/-- C10: with chunk size at least 1 and overlap smaller than chunk size,
every chunk emitted by `chunk_md` is a contiguous substring of the
normalized text, has length between 1 and the chunk size, and contains at
least one non-whitespace character (whitespace-only windows are filtered
out by `if chunk.strip():`). -/
theorem c10_chunk_invariants (T : List Char) (path : String) (S O : Nat)
    (hs1 : 1 ≤ S) (ho : O < S) :
    ∀ cp ∈ chunk_md T path S O, cp.1 <:+: normalize T ∧ 1 ≤ cp.1.length ∧
      cp.1.length ≤ S ∧ cp.1.any (fun c => !(isSpace c)) = true := by
  intro cp hcp
  rw [chunk_md] at hcp
  obtain ⟨q, hq, hqe⟩ := List.mem_map.mp hcp
  obtain ⟨res, hres⟩ := chunkSteps_some (normalize T) S O ho (normalize T).length 0 (by omega)
  rw [chunk_starts, hres] at hq
  simp only [Option.getD_some] at hq
  obtain ⟨hwin, hlt, hany⟩ := chunkSteps_mem (normalize T) S O _ 0 res hres q hq
  subst hqe
  refine ⟨?_, ?_, ?_, ?_⟩
  · show q.2 <:+: normalize T
    rw [hwin]
    exact (( List.take_prefix S ((normalize T).drop q.1)).isInfix).trans
      ((List.drop_suffix q.1 (normalize T)).isInfix)
  · show 1 ≤ q.2.length
    rw [hwin, List.length_take, List.length_drop]
    omega
  · show q.2.length ≤ S
    rw [hwin, List.length_take, List.length_drop]
    omega
  · exact hany

theorem c10_chunk_invariants_witness :
    ((1 : Nat) ≤ 2 ∧ (1 : Nat) < 2) ∧
      ∀ cp ∈ chunk_md ['h', 'i'] "p.md" 2 1,
        cp.1 <:+: normalize ['h', 'i'] ∧ 1 ≤ cp.1.length ∧ cp.1.length ≤ 2 ∧
          cp.1.any (fun c => !(isSpace c)) = true :=
  ⟨⟨by decide, by decide⟩, c10_chunk_invariants ['h', 'i'] "p.md" 2 1 (by decide) (by decide)⟩

end HomeBot
